import Mathlib

/-!
Verification of `scripts/chunk_and_upload.py` (document chunking, change
detection and staging/archive lifecycle for a Pinecone ingestion pipeline).

The Python source is shallowly embedded: pure helper functions become Lean
functions over `List Char` / `String`, byte strings become `List Nat`
(each element `< 256`), and the effectful `main` becomes a pure function
from an explicit input record (source files, tracking store, collaborator
behaviour) to an explicit result record describing every externally
visible effect of one run.
-/

set_option maxRecDepth 100000

namespace ChunkUpload

/-! ### Python string primitives

`str.strip()`, `str.lower()`, the `in` substring test and `\s` of the
`re` module, modelled over `List Char`.  `isPyWs` is Python's whitespace
class for `str` patterns (ASCII whitespace plus the Unicode
`White_Space` code points, as matched by `\s` and stripped by
`str.strip()`). -/

def isPyWs (c : Char) : Bool :=
  let n := c.toNat
  (9 ≤ n && n ≤ 13) || (28 ≤ n && n ≤ 32) || n = 0x85 || n = 0xa0 ||
  n = 0x1680 || (0x2000 ≤ n && n ≤ 0x200a) || n = 0x2028 || n = 0x2029 ||
  n = 0x202f || n = 0x205f || n = 0x3000

/-- Python `str.strip()`: drop leading and trailing whitespace. -/
def pyStrip (l : List Char) : List Char :=
  ((l.dropWhile isPyWs).reverse.dropWhile isPyWs).reverse

/-- Python `str.lower()`, restricted to the character ranges that occur in
this repository's inputs: ASCII letters and the Cyrillic letters used by
the Ukrainian filenames (`А`–`Я`, `Є`, `І`, `Ї`, `Ґ`).  On every other
character it is the identity, as in Python. -/
def pyLowerChar (c : Char) : Char :=
  if 'A' ≤ c && c ≤ 'Z' then Char.ofNat (c.toNat + 32)
  else if 'А' ≤ c && c ≤ 'Я' then Char.ofNat (c.toNat + 32)
  else if c = 'Є' then 'є'
  else if c = 'І' then 'і'
  else if c = 'Ї' then 'ї'
  else if c = 'Ґ' then 'ґ'
  else c

def pyLower (s : String) : String := String.mk (s.data.map pyLowerChar)

/-- Python substring test `needle in hay`. -/
def containsSub (hay needle : List Char) : Bool :=
  match hay with
  | [] => needle.isEmpty
  | _ :: rest => needle.isPrefixOf hay || containsSub rest needle

/-! ### UTF-8 and hex encoding

Python's `str.encode()` / `Path.read_bytes()` deliver UTF-8 bytes; the
hexdigest is lowercase hex. -/

def utf8Bytes (c : Char) : List Nat :=
  let n := c.toNat
  if n < 0x80 then [n]
  else if n < 0x800 then
    [0xc0 + n / 64, 0x80 + n % 64]
  else if n < 0x10000 then
    [0xe0 + n / 4096, 0x80 + (n / 64) % 64, 0x80 + n % 64]
  else
    [0xf0 + n / 262144, 0x80 + (n / 4096) % 64, 0x80 + (n / 64) % 64,
     0x80 + n % 64]

def utf8Encode (s : String) : List Nat := s.data.flatMap utf8Bytes

/-- The lowercase hex digit for a value below 16: `0`–`9` then `a`–`f`
(codepoints 48 + n and 87 + n). -/
def hexChar (n : Nat) : Char :=
  if n < 10 then Char.ofNat (48 + n)
  else if n < 16 then Char.ofNat (87 + n)
  else '0'

def bytesToHex (bytes : List Nat) : List Char :=
  bytes.flatMap (fun b => [hexChar (b / 16), hexChar (b % 16)])

/-! ### MD5 (the `hashlib.md5` collaborator)

Standard MD5 over a byte list, with 32-bit machine words modelled as
`Nat` reduced modulo `2 ^ 32`. -/

def w32 : Nat := 4294967296

def md5K : List Nat :=
  [0xd76aa478, 0xe8c7b756, 0x242070db, 0xc1bdceee,
   0xf57c0faf, 0x4787c62a, 0xa8304613, 0xfd469501,
   0x698098d8, 0x8b44f7af, 0xffff5bb1, 0x895cd7be,
   0x6b901122, 0xfd987193, 0xa679438e, 0x49b40821,
   0xf61e2562, 0xc040b340, 0x265e5a51, 0xe9b6c7aa,
   0xd62f105d, 0x02441453, 0xd8a1e681, 0xe7d3fbc8,
   0x21e1cde6, 0xc33707d6, 0xf4d50d87, 0x455a14ed,
   0xa9e3e905, 0xfcefa3f8, 0x676f02d9, 0x8d2a4c8a,
   0xfffa3942, 0x8771f681, 0x6d9d6122, 0xfde5380c,
   0xa4beea44, 0x4bdecfa9, 0xf6bb4b60, 0xbebfbc70,
   0x289b7ec6, 0xeaa127fa, 0xd4ef3085, 0x04881d05,
   0xd9d4d039, 0xe6db99e5, 0x1fa27cf8, 0xc4ac5665,
   0xf4292244, 0x432aff97, 0xab9423a7, 0xfc93a039,
   0x655b59c3, 0x8f0ccc92, 0xffeff47d, 0x85845dd1,
   0x6fa87e4f, 0xfe2ce6e0, 0xa3014314, 0x4e0811a1,
   0xf7537e82, 0xbd3af235, 0x2ad7d2bb, 0xeb86d391]

def md5S : List Nat :=
  [7, 12, 17, 22, 7, 12, 17, 22, 7, 12, 17, 22, 7, 12, 17, 22,
   5, 9, 14, 20, 5, 9, 14, 20, 5, 9, 14, 20, 5, 9, 14, 20,
   4, 11, 16, 23, 4, 11, 16, 23, 4, 11, 16, 23, 4, 11, 16, 23,
   6, 10, 15, 21, 6, 10, 15, 21, 6, 10, 15, 21, 6, 10, 15, 21]

def cNot32 (x : Nat) : Nat := 4294967295 ^^^ x

def leftrot (x s : Nat) : Nat :=
  ((x <<< s) ||| (x >>> (32 - s))) % w32

/-- Little-endian 32-bit word from four bytes of a block. -/
def wordAt (block : List Nat) (g : Nat) : Nat :=
  block.getD (4 * g) 0 + 256 * block.getD (4 * g + 1) 0 +
  65536 * block.getD (4 * g + 2) 0 + 16777216 * block.getD (4 * g + 3) 0

def md5Mix (block : List Nat)
    (st : Nat × Nat × Nat × Nat) (i : Nat) : Nat × Nat × Nat × Nat :=
  let (a, b, c, d) := st
  let fg : Nat × Nat :=
    if i < 16 then ((b &&& c) ||| (cNot32 b &&& d), i)
    else if i < 32 then ((d &&& b) ||| (cNot32 d &&& c), (5 * i + 1) % 16)
    else if i < 48 then (b ^^^ c ^^^ d, (3 * i + 5) % 16)
    else (c ^^^ (b ||| cNot32 d), (7 * i) % 16)
  let f := (fg.1 + a + md5K.getD i 0 + wordAt block fg.2) % w32
  (d, (b + leftrot f (md5S.getD i 0)) % w32, b, c)

def md5Block (st : Nat × Nat × Nat × Nat) (block : List Nat) :
    Nat × Nat × Nat × Nat :=
  let (a0, b0, c0, d0) := st
  let r := (List.range 64).foldl (md5Mix block) st
  ((a0 + r.1) % w32, (b0 + r.2.1) % w32, (c0 + r.2.2.1) % w32,
   (d0 + r.2.2.2) % w32)

/-- Append the MD5 padding: a `0x80` byte, zero bytes up to 56 mod 64,
then the bit length as a 64-bit little-endian integer. -/
def md5Pad (msg : List Nat) : List Nat :=
  let len := msg.length
  let zeros := (120 - (len + 1) % 64) % 64
  let bits := (8 * len) % 18446744073709551616
  msg ++ [0x80] ++ List.replicate zeros 0 ++
    [bits % 256, (bits / 256) % 256, (bits / 65536) % 256,
     (bits / 16777216) % 256, (bits / 4294967296) % 256,
     (bits / 1099511627776) % 256, (bits / 281474976710656) % 256,
     (bits / 72057594037927936) % 256]

/-- Split a list into consecutive batches of `n` elements (the last one
possibly shorter), as Python `l[i:i+n]` slicing loops do. -/
def chunkEvery (n : Nat) : Nat → List α → List (List α)
  | 0, _ => []
  | _, [] => []
  | fuel + 1, l => l.take n :: chunkEvery n fuel (l.drop n)

def wordBytesLE (x : Nat) : List Nat :=
  [x % 256, (x / 256) % 256, (x / 65536) % 256, (x / 16777216) % 256]

/-- MD5 digest of a byte list: 16 bytes. -/
def md5Digest (msg : List Nat) : List Nat :=
  let padded := md5Pad msg
  let r := (chunkEvery 64 padded.length padded).foldl md5Block
    (0x67452301, 0xefcdab89, 0x98badcfe, 0x10325476)
  wordBytesLE r.1 ++ wordBytesLE r.2.1 ++ wordBytesLE r.2.2.1 ++
    wordBytesLE r.2.2.2

/-- Python `hashlib.md5(bytes).hexdigest()`: 32 lowercase hex characters. -/
def md5Hexdigest (msg : List Nat) : String :=
  String.mk (bytesToHex (md5Digest msg))

/-! ### Chunking parameters and regex splitting

`CHUNK_SIZE_CHARS`/`MIN_CHUNK_CHARS` are the module-level constants.
`splitParas` models `re.split(r'\n\s*\n', text)`: the regex engine scans
left to right; at a newline the greedy `\s*` consumes the maximal
whitespace run and backtracks to the last newline inside it.
`splitSentences` models `re.split(r'(?<=[.!?])\s+', para)`: a split
happens at a whitespace character whose predecessor in the original
string is `.`, `!` or `?`, consuming the maximal whitespace run.  Both
scanners use fuel for termination; the callers pass enough fuel that the
fallback case is never reached. -/

def CHUNK_SIZE_CHARS : Nat := 2000
def MIN_CHUNK_CHARS : Nat := 100

/-- Index of the last newline of a list, if any. -/
def lastNewlinePos (l : List Char) : Option Nat :=
  match l with
  | [] => none
  | c :: rest =>
    match lastNewlinePos rest with
    | some k => some (k + 1)
    | none => if c = '\n' then some 0 else none

def splitParasGo : Nat → List Char → List Char → List (List Char)
  | 0, cur, rest => [cur ++ rest]
  | _ + 1, cur, [] => [cur]
  | fuel + 1, cur, c :: rest =>
    if c = '\n' then
      match lastNewlinePos (rest.takeWhile isPyWs) with
      | some k => cur :: splitParasGo fuel [] (rest.drop (k + 1))
      | none => splitParasGo fuel (cur ++ [c]) rest
    else splitParasGo fuel (cur ++ [c]) rest

def splitParas (text : List Char) : List (List Char) :=
  splitParasGo (text.length + 1) [] text

def splitSentencesGo : Nat → Option Char → List Char → List Char →
    List (List Char)
  | 0, _, cur, rest => [cur ++ rest]
  | _ + 1, _, cur, [] => [cur]
  | fuel + 1, prev, cur, c :: rest =>
    if isPyWs c && (prev = some '.' || prev = some '!' || prev = some '?') then
      -- after the maximal whitespace run the next character is not
      -- whitespace, so no split can fire there whatever `prev` is
      cur :: splitSentencesGo fuel none [] (rest.dropWhile isPyWs)
    else splitSentencesGo fuel (some c) (cur ++ [c]) rest

def splitSentences (para : List Char) : List (List Char) :=
  splitSentencesGo (para.length + 1) none [] para

/-! ### chunk_text, categorize_document, generate_id, compute_file_hash -/

/-- The body of the paragraph loop of `chunk_text`, acting on the state
`(current_chunk, chunks)`. -/
def chunkParaStep (st : List Char × List (List Char)) (para0 : List Char) :
    List Char × List (List Char) :=
  let para := pyStrip para0
  if para.isEmpty then st
  else if CHUNK_SIZE_CHARS < para.length then
    (splitSentences para).foldl
      (fun st2 sentence =>
        if st2.1.length + sentence.length + 2 ≤ CHUNK_SIZE_CHARS then
          (pyStrip (st2.1 ++ [' '] ++ sentence), st2.2)
        else if st2.1.isEmpty then (sentence, st2.2)
        else (sentence, st2.2 ++ [st2.1])) st
  else
    if st.1.length + para.length + 2 ≤ CHUNK_SIZE_CHARS then
      (pyStrip (st.1 ++ ['\n', '\n'] ++ para), st.2)
    else if st.1.isEmpty then (para, st.2)
    else (para, st.2 ++ [st.1])

/-- The state of the `chunk_text` loop after all paragraphs. -/
def chunkCore (text : List Char) : List Char × List (List Char) :=
  (splitParas text).foldl chunkParaStep ([], [])

/-- `chunk_text(text)` from the source: split into paragraphs, accumulate
them (splitting oversized paragraphs by sentences), flush the final
accumulator, and keep only chunks of length at least `MIN_CHUNK_CHARS`. -/
def chunk_text (text : String) : List String :=
  let r := chunkCore text.data
  let chunks := if r.1.isEmpty then r.2 else r.2 ++ [r.1]
  (chunks.filter (fun c => MIN_CHUNK_CHARS ≤ c.length)).map String.mk

/-- `categorize_document(filename)` from the source: lowercase the name and
test the keywords in the source's fixed order. -/
def categorize_document (filename : String) : String :=
  let name := (pyLower filename).data
  if containsSub name "закон".data then "legislation"
  else if containsSub name "gem".data then "research"
  else if containsSub name "expert".data || containsSub name "article".data
    then "article"
  else if containsSub name "аналіз".data then "analysis"
  else if containsSub name "договір".data || containsSub name "договор".data
      || containsSub name "nda".data then "contract"
  else "other"

/-- `generate_id(filename, chunk_index, text)` from the source:
`md5(f"{filename}_{chunk_index}_{text[:50]}".encode()).hexdigest()[:16]`. -/
def generate_id (filename : String) (chunk_index : Nat) (text : String) :
    String :=
  let hash_input :=
    filename ++ "_" ++ toString chunk_index ++ "_" ++ text.take 50
  String.mk ((md5Hexdigest (utf8Encode hash_input)).data.take 16)

/-- `compute_file_hash(filepath)` from the source, over the file content:
the MD5 hexdigest of the file bytes (the files are UTF-8 text). -/
def compute_file_hash (content : String) : String :=
  md5Hexdigest (utf8Encode content)

/-! ### Data model: tracking store, source files, change analysis -/

structure TrackEntry where
  content_hash : String
  chunk_ids : List String
  chunks_count : Nat
  uploaded_at : Option String
  source : Option String
deriving DecidableEq

/-- The tracking file `{"index", "namespace", "last_updated", "files"}`;
the claims concern `files` and the `last_updated` write of
`save_tracking`. -/
structure Tracking where
  last_updated : Option String
  files : List (String × TrackEntry)
deriving DecidableEq

/-- A source document: a `*.md` file of `source_docs`, with its text;
the bytes on disk are the UTF-8 encoding of the text. -/
structure SourceFile where
  name : String
  content : String
deriving DecidableEq

/-- Python `dict` lookup on a string-keyed insertion-ordered mapping. -/
def lookupEntry (d : List (String × α)) (name : String) : Option α :=
  match d with
  | [] => none
  | (n, e) :: rest => if n = name then some e else lookupEntry rest name

/-- Python `dict` assignment `d[k] = v`: replace in place or append. -/
def dictSet (d : List (String × α)) (k : String) (v : α) :
    List (String × α) :=
  match d with
  | [] => [(k, v)]
  | (k0, v0) :: rest =>
    if k0 = k then (k0, v) :: rest else (k0, v0) :: dictSet rest k v

/-- Mutation of one entry of a dict in place (`d[k]["field"] = v`);
identity when the key is absent. -/
def dictModify (d : List (String × α)) (k : String) (f : α → α) :
    List (String × α) :=
  match d with
  | [] => []
  | (k0, v0) :: rest =>
    if k0 = k then (k0, f v0) :: rest else (k0, v0) :: dictModify rest k f

structure Changes where
  new_files : List SourceFile
  changed_files : List SourceFile
  unchanged_files : List SourceFile
  orphan_chunk_ids : List String
deriving DecidableEq

/-- The loop body of `analyze_changes`: classify one file against the
store by its content hash. -/
def analyzeStep (tracked_files : List (String × TrackEntry))
    (acc : Changes) (fp : SourceFile) : Changes :=
  match lookupEntry tracked_files fp.name with
  | none => { acc with new_files := acc.new_files ++ [fp] }
  | some e =>
    if e.content_hash ≠ compute_file_hash fp.content then
      { acc with changed_files := acc.changed_files ++ [fp],
                 orphan_chunk_ids := acc.orphan_chunk_ids ++ e.chunk_ids }
    else { acc with unchanged_files := acc.unchanged_files ++ [fp] }

/-- `analyze_changes(files, tracking, logger)` from the source: classify
each file by comparing the stored hash with the freshly computed one,
collecting the previously recorded chunk IDs of changed files. -/
def analyze_changes (files : List SourceFile)
    (tracked_files : List (String × TrackEntry)) : Changes :=
  files.foldl (analyzeStep tracked_files) ⟨[], [], [], []⟩

/-- One record handed to the upsert collaborator. -/
structure ChunkRecord where
  _id : String
  text : String
  filename : String
  chunk_index : Nat
  total_chunks : Nat
  doc_type : String
deriving DecidableEq

/-- `process_file(filepath, logger)`: chunk the text, build the records
and the chunk ID list. -/
def process_file (fp : SourceFile) : List ChunkRecord × List String :=
  let chunks := chunk_text fp.content
  let doc_type := categorize_document fp.name
  (chunks.enum.map (fun ic =>
      { _id := generate_id fp.name ic.1 ic.2, text := ic.2,
        filename := fp.name, chunk_index := ic.1,
        total_chunks := chunks.length, doc_type := doc_type }),
   chunks.enum.map (fun ic => generate_id fp.name ic.1 ic.2))

/-- `verify_upload(index, chunk_ids, logger)`: reads only the aggregate
namespace statistics (which are logged) and returns the fixed value
`True`; the chunk ID list is never inspected. -/
def verify_upload (stats : List (String × Nat)) (chunk_ids : List String) :
    Bool :=
  let _total_vectors := (lookupEntry stats "default").getD 0
  true

/-! ### The main() pipeline as a pure function -/

/-- The externally supplied behaviour of one `main()` run: configuration,
the files found by the glob, the tracking file on disk, whether each
upsert batch raises, the index statistics and the wall-clock time. -/
structure RunInput where
  api_key_present : Bool
  connect_ok : Bool
  source_files : List SourceFile
  tracking : Tracking
  upload_fails : Nat → Bool
  stats : List (String × Nat)
  now : String

/-- Every externally visible effect of one `main()` run. -/
structure RunResult where
  status : String
  deleted_orphans : List String
  staged : List String
  chunks_created : Nat
  uploaded_count : Nat
  upload_error_batches : List Nat
  archived_chunks : List String
  archived_sources : List String
  verification_warning : Bool
  tracking_saved : Bool
  final_tracking : Tracking
deriving DecidableEq

/-- A run that returns without touching staging, archive, index or
tracking (missing key, failed connect, no files, or nothing changed). -/
def skipResult (inp : RunInput) (status : String) : RunResult :=
  { status := status, deleted_orphans := [], staged := [],
    chunks_created := 0, uploaded_count := 0, upload_error_batches := [],
    archived_chunks := [], archived_sources := [],
    verification_warning := false, tracking_saved := false,
    final_tracking := inp.tracking }

/-- КРОК 2: the files of the source directory (the `*.md` glob minus
`desktop.ini`). -/
def filesOf (inp : RunInput) : List SourceFile :=
  inp.source_files.filter (fun f => f.name ≠ "desktop.ini")

/-- КРОК 3: the change analysis of the run. -/
def changesOf (inp : RunInput) : Changes :=
  analyze_changes (filesOf inp) inp.tracking.files

/-- `files_to_process = changes["new_files"] + changes["changed_files"]`. -/
def toProcessOf (inp : RunInput) : List SourceFile :=
  (changesOf inp).new_files ++ (changesOf inp).changed_files

/-- One entry of the `staging_files` dict of step 5. -/
structure StagedDoc where
  file : SourceFile
  records : List ChunkRecord
  chunk_ids : List String
deriving DecidableEq

def batch_size : Nat := 96

/-- КРОК 5, loop body: process one file, write its staging artifact and
prepare its tracking entry (`uploaded_at` is filled only later, after a
successful upload, per the source comment). -/
def step5fn (acc : List ChunkRecord × List (String × StagedDoc) ×
      List (String × TrackEntry)) (fp : SourceFile) :
    List ChunkRecord × List (String × StagedDoc) ×
      List (String × TrackEntry) :=
  let rc := process_file fp
  (acc.1 ++ rc.1,
   dictSet acc.2.1 fp.name ⟨fp, rc.1, rc.2⟩,
   dictSet acc.2.2 fp.name
     { content_hash := compute_file_hash fp.content,
       chunk_ids := rc.2, chunks_count := rc.2.length,
       uploaded_at := none, source := none })

/-- КРОК 6, loop body: upsert one batch, accumulating the uploaded count
and the failed batch numbers. -/
def uploadFn (fails : Nat → Bool) (acc : Nat × List Nat)
    (ib : Nat × List ChunkRecord) : Nat × List Nat :=
  if fails ib.1 then (acc.1, acc.2 ++ [ib.1])
  else (acc.1 + ib.2.length, acc.2)

/-- КРОК 8, loop body: move one staged artifact and its source document
to the archives and stamp its tracking entry. -/
def step8fn (now : String)
    (acc : List String × List String × List (String × TrackEntry))
    (nd : String × StagedDoc) :
    List String × List String × List (String × TrackEntry) :=
  (acc.1 ++ [nd.1], acc.2.1 ++ [nd.1],
   dictModify acc.2.2 nd.1 (fun e =>
     { e with uploaded_at := some now,
              source := some "archived_source_docs" }))

/-- КРОК 9, loop body: carry one unchanged file's entry forward
verbatim. -/
def step9fn (tracked_files : List (String × TrackEntry))
    (d : List (String × TrackEntry)) (fp : SourceFile) :
    List (String × TrackEntry) :=
  match lookupEntry tracked_files fp.name with
  | some e => dictSet d fp.name e
  | none => d  -- unreachable: the unchanged classification implies presence

/-- `main()` from the source, steps 1–9, as a pure function on the
explicit input.  Note that step 8 archives every staged document and
step 9 rewrites the tracking file, with no condition on
`upload_errors`. -/
def mainRun (inp : RunInput) : RunResult :=
  if ¬ inp.api_key_present then skipResult inp "failed"
  else if ¬ inp.connect_ok then skipResult inp "failed"
  else if (filesOf inp).isEmpty then skipResult inp "completed"
  else if (toProcessOf inp).isEmpty then skipResult inp "completed"
  else
    let changes := changesOf inp
    -- КРОК 4: видалення orphan chunks
    let deleted := changes.orphan_chunk_ids
    -- КРОК 5: chunking і staging
    let step5 := (toProcessOf inp).foldl step5fn ([], [], [])
    let all_records := step5.1
    let staging_files := step5.2.1
    -- КРОК 6: завантаження батчами
    let batches := chunkEvery batch_size all_records.length all_records
    let upload := batches.enum.foldl (uploadFn inp.upload_fails) (0, [])
    -- КРОК 7: верифікація
    let verification_ok :=
      verify_upload inp.stats (all_records.map (fun r => r._id))
    -- КРОК 8: архівування всіх staged документів
    let step8 := staging_files.foldl (step8fn inp.now)
      ([], [], step5.2.2)
    -- КРОК 9: оновлення tracking.json
    let files_tracking := changes.unchanged_files.foldl
      (step9fn inp.tracking.files) step8.2.2
    { status := if upload.2.isEmpty then "completed" else "partial",
      deleted_orphans := deleted,
      staged := staging_files.map Prod.fst,
      chunks_created := all_records.length,
      uploaded_count := upload.1,
      upload_error_batches := upload.2,
      archived_chunks := step8.1,
      archived_sources := step8.2.1,
      verification_warning := !verification_ok,
      tracking_saved := true,
      final_tracking := { last_updated := some inp.now,
                          files := files_tracking } }

/-! ### Unit-level view of chunk_text

Ghost definitions for the order/partition property: `chunk_text` cuts
the text into units (stripped paragraphs; sentences of oversized
paragraphs) and accumulates them left to right. -/

/-- The separator used when a unit is appended to a nonempty
accumulator. -/
def sepOf (isSentence : Bool) : List Char :=
  if isSentence then [' '] else ['\n', '\n']

/-- The units contributed by one paragraph. -/
def unitsOfPara (para : List Char) : List (List Char × Bool) :=
  let p := pyStrip para
  if p.isEmpty then []
  else if CHUNK_SIZE_CHARS < p.length then
    (splitSentences p).map (fun s => (s, true))
  else [(p, false)]

/-- The unit sequence of a whole text, in document order. -/
def unitsOf (text : List Char) : List (List Char × Bool) :=
  (splitParas text).flatMap unitsOfPara

/-- The accumulator step of `chunk_text` expressed on one unit. -/
def ustep (st : List Char × List (List Char)) (u : List Char × Bool) :
    List Char × List (List Char) :=
  if st.1.length + u.1.length + 2 ≤ CHUNK_SIZE_CHARS then
    (pyStrip (st.1 ++ sepOf u.2 ++ u.1), st.2)
  else if st.1.isEmpty then (u.1, st.2)
  else (u.1, st.2 ++ [st.1])

/-- Joining a block of units with their separators: the text of the
chunk the block produces. -/
def glueBlock : List (List Char × Bool) → List Char
  | [] => []
  | u :: rest => rest.foldl (fun acc v => acc ++ sepOf v.2 ++ v.1) u.1

/-- Ghost state: the units of the open chunk, and the finished blocks. -/
def gstep (g : List (List Char × Bool) × List (List (List Char × Bool)))
    (u : List Char × Bool) :
    List (List Char × Bool) × List (List (List Char × Bool)) :=
  if (glueBlock g.1).length + u.1.length + 2 ≤ CHUNK_SIZE_CHARS then
    (g.1 ++ [u], g.2)
  else if g.1.isEmpty then ([u], g.2)
  else ([u], g.2 ++ [g.1])

/-- A clean piece of text: nonempty, no leading and no trailing
whitespace. -/
def cleanB (l : List Char) : Bool :=
  !l.isEmpty && l.head?.all (fun c => !isPyWs c) &&
    l.getLast?.all (fun c => !isPyWs c)

/-! ### Classification predicates and further notions used by the
statements -/

/-- A file is new when its filename is absent from the store. -/
def isNewFile (tracked : List (String × TrackEntry)) (fp : SourceFile) :
    Bool :=
  (lookupEntry tracked fp.name).isNone

/-- A file is changed when its filename is present but the stored hash
differs from the freshly computed content hash. -/
def isChangedFile (tracked : List (String × TrackEntry)) (fp : SourceFile) :
    Bool :=
  match lookupEntry tracked fp.name with
  | some e => decide (e.content_hash ≠ compute_file_hash fp.content)
  | none => false

/-- A file is unchanged when its filename is present with a matching
content hash. -/
def isUnchangedFile (tracked : List (String × TrackEntry))
    (fp : SourceFile) : Bool :=
  match lookupEntry tracked fp.name with
  | some e => decide (e.content_hash = compute_file_hash fp.content)
  | none => false

/-- The chunk IDs previously recorded for a filename (empty when
untracked). -/
def orphanIdsOf (tracked : List (String × TrackEntry)) (fp : SourceFile) :
    List String :=
  match lookupEntry tracked fp.name with
  | some e => e.chunk_ids
  | none => []

/-- A lowercase hexadecimal digit. -/
def isHexChar (c : Char) : Bool :=
  ('0' ≤ c && c ≤ '9') || ('a' ≤ c && c ≤ 'f')

/-! ### Concrete inputs used by counterexamples and witnesses -/

/-- A 2042-character text: a 1990-character paragraph, a blank-line
break, and a 50-character paragraph. -/
def c2text : String :=
  String.mk (List.replicate 1990 'a' ++
    '\n' :: '\n' :: List.replicate 50 'b')

/-- A 150-character source document (one chunk). -/
def docA : SourceFile := ⟨"doc.md", String.mk (List.replicate 150 'a')⟩

/-- One new file, empty tracking store, every upsert batch raising. -/
def failingUploadInput : RunInput :=
  { api_key_present := true, connect_ok := true, source_files := [docA],
    tracking := ⟨none, []⟩, upload_fails := fun _ => true,
    stats := [], now := "2026-01-01T00:00:00" }

/-- One new file; the tracking store still holds an entry for a file that
is no longer in the source directory; uploads succeed. -/
def staleTrackingInput : RunInput :=
  { api_key_present := true, connect_ok := true, source_files := [docA],
    tracking := ⟨none, [("gone.md", ⟨"oldhash", ["old1", "old2"], 2,
      some "2025-01-01T00:00:00", some "archived_source_docs"⟩)]⟩,
    upload_fails := fun _ => false,
    stats := [], now := "2026-01-01T00:00:00" }

/-- A store holding file `A.md` at hash `h1` with chunk IDs `[a, b]`, and
the current `A.md` whose content hashes to something else. -/
def storeA : List (String × TrackEntry) :=
  [("A.md", ⟨"h1", ["a", "b"], 2, none, none⟩)]

def fileA : SourceFile := ⟨"A.md", "x"⟩

/-- An unchanged file and its up-to-date tracking store. -/
def upToDateInput : RunInput :=
  { api_key_present := true, connect_ok := true, source_files := [docA],
    tracking := ⟨some "2025-01-01T00:00:00",
      [("doc.md", ⟨compute_file_hash docA.content, ["id0"], 1,
        some "2025-01-01T00:00:00", some "archived_source_docs"⟩)]⟩,
    upload_fails := fun _ => false,
    stats := [], now := "2026-01-01T00:00:00" }

/-! ### Lemmas about the dictionary operations -/

theorem lookupEntry_eq_none_iff {α : Type} (d : List (String × α))
    (n : String) : lookupEntry d n = none ↔ n ∉ d.map Prod.fst := by
  induction d with
  | nil => simp [lookupEntry]
  | cons kv rest ih =>
    obtain ⟨k0, v0⟩ := kv
    by_cases h : k0 = n
    · subst h; simp [lookupEntry]
    · simp [lookupEntry, h, ih, Ne.symm h]

theorem dictSet_fresh {α : Type} (d : List (String × α)) (k : String)
    (v : α) (h : k ∉ d.map Prod.fst) : dictSet d k v = d ++ [(k, v)] := by
  induction d with
  | nil => rfl
  | cons kv rest ih =>
    obtain ⟨k0, v0⟩ := kv
    simp only [List.map_cons, List.mem_cons] at h
    push_neg at h
    rw [dictSet, if_neg (fun hh => h.1 hh.symm), ih h.2]
    rfl

theorem dictModify_keys {α : Type} (d : List (String × α)) (k : String)
    (f : α → α) : (dictModify d k f).map Prod.fst = d.map Prod.fst := by
  induction d with
  | nil => rfl
  | cons kv rest ih =>
    obtain ⟨k0, v0⟩ := kv
    by_cases h : k0 = k <;> simp [dictModify, h, ih]

/-! ### Lemmas about strip and clean pieces of text -/

theorem cleanB_iff {l : List Char} :
    cleanB l = true ↔
      l ≠ [] ∧ l.head?.all (fun c => !isPyWs c) = true ∧
        l.getLast?.all (fun c => !isPyWs c) = true := by
  simp [cleanB, Bool.and_eq_true, and_assoc, List.isEmpty_iff]

theorem cleanB_intro {l : List Char} (h1 : l ≠ [])
    (h2 : isPyWs (l.head h1) = false) (h3 : isPyWs (l.getLast h1) = false) :
    cleanB l = true := by
  rw [cleanB_iff]
  refine ⟨h1, ?_, ?_⟩
  · rw [List.head?_eq_head h1]; simp [h2]
  · rw [List.getLast?_eq_getLast l h1]; simp [h3]

theorem dropWhile_of_clean {l : List Char} (h : cleanB l = true) :
    List.dropWhile isPyWs l = l := by
  obtain ⟨h1, h2, -⟩ := cleanB_iff.mp h
  apply List.dropWhile_eq_self_iff.mpr
  intro hl
  rw [List.get_mk_zero]
  rw [List.head?_eq_head h1] at h2
  simp at h2
  simp [h2]

theorem rdropWhile_of_clean {l : List Char} (h : cleanB l = true) :
    List.rdropWhile isPyWs l = l := by
  obtain ⟨h1, -, h3⟩ := cleanB_iff.mp h
  apply List.rdropWhile_eq_self_iff.mpr
  intro hl
  rw [List.getLast?_eq_getLast l h1] at h3
  simp at h3
  simp [h3]

theorem pyStrip_rdrop (l : List Char) :
    pyStrip l = List.rdropWhile isPyWs (List.dropWhile isPyWs l) := rfl

theorem pyStrip_eq_self {l : List Char} (h : cleanB l = true) :
    pyStrip l = l := by
  rw [pyStrip_rdrop, dropWhile_of_clean h, rdropWhile_of_clean h]

theorem pyStrip_nil_of_ws {l : List Char}
    (h : ∀ c ∈ l, isPyWs c = true) : pyStrip l = [] := by
  rw [pyStrip_rdrop, List.dropWhile_eq_nil_iff.mpr h]
  simp

theorem pyStrip_ws_append {sep l : List Char}
    (hsep : ∀ c ∈ sep, isPyWs c = true) (h : cleanB l = true) :
    pyStrip (sep ++ l) = l := by
  rw [pyStrip_rdrop, List.dropWhile_append, List.dropWhile_eq_nil_iff.mpr hsep]
  simp [dropWhile_of_clean h, rdropWhile_of_clean h]

theorem cleanB_append {x y : List Char} (mid : List Char)
    (hx : cleanB x = true) (hy : cleanB y = true) :
    cleanB (x ++ mid ++ y) = true := by
  obtain ⟨hx1, hx2, -⟩ := cleanB_iff.mp hx
  obtain ⟨hy1, -, hy3⟩ := cleanB_iff.mp hy
  rw [cleanB_iff]
  refine ⟨by simp [hx1], ?_, ?_⟩
  · rw [List.head?_append_of_ne_nil (x ++ mid) (by simp [hx1]),
      List.head?_append_of_ne_nil x hx1]
    exact hx2
  · rw [List.getLast?_append]
    rw [List.getLast?_eq_getLast y hy1] at hy3 ⊢
    simpa using hy3

theorem pyStrip_clean (l : List Char) :
    pyStrip l = [] ∨ cleanB (pyStrip l) = true := by
  by_cases hnil : pyStrip l = []
  · exact Or.inl hnil
  right
  apply cleanB_intro hnil
  · -- the head of the left-stripped list is not whitespace, and
    -- right-stripping keeps a prefix of it
    have hpre := List.rdropWhile_prefix isPyWs (List.dropWhile isPyWs l)
    rw [← pyStrip_rdrop] at hpre
    obtain ⟨t, ht⟩ := hpre
    have hd : (List.dropWhile isPyWs l) ≠ [] := by
      intro hh
      rw [← ht] at hh
      simp at hh
      exact hnil hh.1
    have hnd := List.head_dropWhile_not isPyWs l hd
    have hq : (List.dropWhile isPyWs l).head? = (pyStrip l).head? := by
      rw [← ht]
      exact List.head?_append_of_ne_nil _ hnil
    rw [List.head?_eq_head hd, List.head?_eq_head hnil] at hq
    rw [← Option.some.inj hq]
    exact hnd
  · have := List.rdropWhile_last_not isPyWs (List.dropWhile isPyWs l)
    rw [← pyStrip_rdrop] at this
    simpa using this hnil

/-! ### Lemmas about change analysis and identifiers -/

theorem analyze_foldl (tracked : List (String × TrackEntry))
    (files : List SourceFile) : ∀ acc : Changes,
    files.foldl (analyzeStep tracked) acc =
      ⟨acc.new_files ++ files.filter (isNewFile tracked),
       acc.changed_files ++ files.filter (isChangedFile tracked),
       acc.unchanged_files ++ files.filter (isUnchangedFile tracked),
       acc.orphan_chunk_ids ++
         (files.filter (isChangedFile tracked)).flatMap (orphanIdsOf tracked)⟩ := by
  induction files with
  | nil => intro acc; simp
  | cons fp files ih =>
    intro acc
    rw [List.foldl_cons, ih]
    rcases hl : lookupEntry tracked fp.name with _ | e
    · simp [analyzeStep, hl, isNewFile, isChangedFile, isUnchangedFile,
        List.filter_cons, orphanIdsOf]
    · by_cases hh : e.content_hash = compute_file_hash fp.content
      · simp [analyzeStep, hl, hh, isNewFile, isChangedFile, isUnchangedFile,
          List.filter_cons, orphanIdsOf]
      · simp [analyzeStep, hl, hh, isNewFile, isChangedFile, isUnchangedFile,
          List.filter_cons, orphanIdsOf]

theorem analyze_changes_eq (files : List SourceFile)
    (tracked : List (String × TrackEntry)) :
    analyze_changes files tracked =
      ⟨files.filter (isNewFile tracked),
       files.filter (isChangedFile tracked),
       files.filter (isUnchangedFile tracked),
       (files.filter (isChangedFile tracked)).flatMap (orphanIdsOf tracked)⟩ := by
  unfold analyze_changes
  rw [analyze_foldl]
  simp

theorem classify_trichotomy (tracked : List (String × TrackEntry))
    (fp : SourceFile) :
    (isNewFile tracked fp || isChangedFile tracked fp ||
        isUnchangedFile tracked fp) = true
    ∧ (isNewFile tracked fp && isChangedFile tracked fp) = false
    ∧ (isNewFile tracked fp && isUnchangedFile tracked fp) = false
    ∧ (isChangedFile tracked fp && isUnchangedFile tracked fp) = false := by
  unfold isNewFile isChangedFile isUnchangedFile
  rcases hl : lookupEntry tracked fp.name with _ | e
  · simp
  · by_cases hh : e.content_hash = compute_file_hash fp.content <;> simp [hh]

theorem hexChar_isHex (n : Nat) : isHexChar (hexChar n) = true := by
  unfold hexChar
  rcases Nat.lt_or_ge n 16 with h | h
  · interval_cases n <;> decide
  · rw [if_neg (by omega), if_neg (by omega)]
    decide

theorem bytesToHex_cons (b : Nat) (bs : List Nat) :
    bytesToHex (b :: bs) =
      hexChar (b / 16) :: hexChar (b % 16) :: bytesToHex bs := rfl

theorem bytesToHex_isHex {bs : List Nat} :
    ∀ c ∈ bytesToHex bs, isHexChar c = true := by
  induction bs with
  | nil => intro c hc; cases hc
  | cons b bs ih =>
    intro c hc
    rw [bytesToHex_cons] at hc
    simp only [List.mem_cons] at hc
    rcases hc with rfl | rfl | hc
    · exact hexChar_isHex _
    · exact hexChar_isHex _
    · exact ih c hc

theorem bytesToHex_length (bs : List Nat) :
    (bytesToHex bs).length = 2 * bs.length := by
  induction bs with
  | nil => rfl
  | cons b bs ih =>
    rw [bytesToHex_cons, List.length_cons, List.length_cons, ih,
      List.length_cons]
    omega

theorem md5Digest_length (msg : List Nat) : (md5Digest msg).length = 16 := by
  simp [md5Digest, wordBytesLE]

theorem generate_id_length (f : String) (i : Nat) (t : String) :
    (generate_id f i t).length = 16 := by
  unfold generate_id md5Hexdigest
  simp [String.length, List.length_take, bytesToHex_length, md5Digest_length]

theorem generate_id_hex (f : String) (i : Nat) (t : String) :
    ∀ c ∈ (generate_id f i t).data, isHexChar c = true := by
  intro c hc
  unfold generate_id md5Hexdigest at hc
  exact bytesToHex_isHex c (List.take_subset _ _ hc)

/-! ### Lemmas: the unit-level view of chunk_text, whitespace-only input -/

theorem chunkParaStep_eq_units (st : List Char × List (List Char))
    (para : List Char) :
    chunkParaStep st para = (unitsOfPara para).foldl ustep st := by
  unfold chunkParaStep unitsOfPara
  by_cases h1 : (pyStrip para).isEmpty
  · simp [h1]
  · by_cases h2 : CHUNK_SIZE_CHARS < (pyStrip para).length
    · simp only [h1, h2, if_true, if_false, Bool.false_eq_true]
      rw [List.foldl_map]
      rfl
    · simp only [h1, h2, if_true, if_false, Bool.false_eq_true]
      rfl

theorem foldl_paraStep_units (paras : List (List Char)) :
    ∀ st, paras.foldl chunkParaStep st =
      (paras.flatMap unitsOfPara).foldl ustep st := by
  induction paras with
  | nil => intro st; rfl
  | cons p ps ih =>
    intro st
    rw [List.foldl_cons, List.flatMap_cons, List.foldl_append, ih,
      chunkParaStep_eq_units]

theorem chunkCore_eq_units (text : List Char) :
    chunkCore text = (unitsOf text).foldl ustep ([], []) := by
  unfold chunkCore unitsOf
  exact foldl_paraStep_units _ _

theorem splitParasGo_subset (fuel : Nat) :
    ∀ (cur rest : List Char),
      ∀ piece ∈ splitParasGo fuel cur rest, ∀ c ∈ piece, c ∈ cur ∨ c ∈ rest := by
  induction fuel with
  | zero =>
    intro cur rest piece hp c hc
    simp only [splitParasGo, List.mem_singleton] at hp
    subst hp
    simpa using hc
  | succ fuel ih =>
    intro cur rest piece hp c hc
    cases rest with
    | nil =>
      simp only [splitParasGo, List.mem_singleton] at hp
      subst hp
      exact Or.inl hc
    | cons c0 rest =>
      simp only [splitParasGo] at hp
      by_cases h0 : c0 = '\n'
      · rw [if_pos h0] at hp
        cases hm : lastNewlinePos (rest.takeWhile isPyWs) with
        | some k =>
          rw [hm] at hp
          rcases List.mem_cons.mp hp with rfl | hp
          · exact Or.inl hc
          · rcases ih [] _ piece hp c hc with h | h
            · cases h
            · exact Or.inr (List.mem_cons_of_mem _ (List.mem_of_mem_drop h))
        | none =>
          rw [hm] at hp
          rcases ih _ _ piece hp c hc with h | h
          · rcases List.mem_append.mp h with h | h
            · exact Or.inl h
            · simp only [List.mem_singleton] at h
              subst h
              exact Or.inr (by simp [h0])
          · exact Or.inr (List.mem_cons_of_mem _ h)
      · rw [if_neg h0] at hp
        rcases ih _ _ piece hp c hc with h | h
        · rcases List.mem_append.mp h with h | h
          · exact Or.inl h
          · simp only [List.mem_singleton] at h
            subst h
            exact Or.inr (List.mem_cons_self _ _)
        · exact Or.inr (List.mem_cons_of_mem _ h)

theorem splitParas_subset (text : List Char) :
    ∀ piece ∈ splitParas text, ∀ c ∈ piece, c ∈ text := by
  intro piece hp c hc
  rcases splitParasGo_subset _ _ _ piece hp c hc with h | h
  · cases h
  · exact h

theorem unitsOf_nil_of_ws {text : List Char}
    (h : ∀ c ∈ text, isPyWs c = true) : unitsOf text = [] := by
  unfold unitsOf
  rw [List.flatMap_eq_nil_iff]
  intro para hpara
  have hp : pyStrip para = [] :=
    pyStrip_nil_of_ws (fun c hc => h c (splitParas_subset text para hpara c hc))
  simp [unitsOfPara, hp]

theorem chunk_text_of_ws {t : String}
    (h : ∀ c ∈ t.data, isPyWs c = true) : chunk_text t = [] := by
  unfold chunk_text
  rw [chunkCore_eq_units, unitsOf_nil_of_ws h]
  rfl

/-! ### Lemmas: the paragraph scanner on the long two-paragraph text -/

theorem lastNewlinePos_eq_none {l : List Char}
    (h : ∀ c ∈ l, ¬ c = '\n') : lastNewlinePos l = none := by
  induction l with
  | nil => rfl
  | cons c rest ih =>
    rw [lastNewlinePos, ih (fun c hc => h c (List.mem_cons_of_mem _ hc)),
      if_neg (h c (List.mem_cons_self _ _))]

theorem splitParasGo_scan (x : List Char) (hx : ∀ c ∈ x, ¬ c = '\n') :
    ∀ (fuel : Nat) (cur rest : List Char),
      splitParasGo (x.length + fuel) cur (x ++ rest) =
        splitParasGo fuel (cur ++ x) rest := by
  induction x with
  | nil => intro fuel cur rest; simp
  | cons c x ih =>
    intro fuel cur rest
    have hc : ¬ c = '\n' := hx c (List.mem_cons_self _ _)
    have hlen : (c :: x).length + fuel = (x.length + fuel) + 1 := by
      simp [List.length_cons]; omega
    rw [hlen]
    show splitParasGo ((x.length + fuel) + 1) cur (c :: (x ++ rest)) = _
    rw [splitParasGo, if_neg hc,
      ih (fun c hc => hx c (List.mem_cons_of_mem _ hc)) fuel (cur ++ [c]) rest]
    simp

theorem splitParasGo_no_nl (x : List Char) (hx : ∀ c ∈ x, ¬ c = '\n')
    (fuel : Nat) (cur : List Char) :
    splitParasGo (x.length + (fuel + 1)) cur x = [cur ++ x] := by
  have h := splitParasGo_scan x hx (fuel + 1) cur []
  rw [List.append_nil] at h
  rw [h]
  rfl

theorem splitParasGo_break (y : List Char) (fuel : Nat) (cur : List Char)
    (hy : ∀ c ∈ y.takeWhile isPyWs, ¬ c = '\n') :
    splitParasGo (fuel + 1) cur ('\n' :: '\n' :: y) =
      cur :: splitParasGo fuel [] y := by
  rw [splitParasGo, if_pos rfl]
  have hrun : ('\n' :: y).takeWhile isPyWs = '\n' :: y.takeWhile isPyWs := by
    rw [List.takeWhile_cons, if_pos (by decide)]
  rw [hrun, lastNewlinePos, lastNewlinePos_eq_none hy, if_pos rfl]
  rfl

theorem cleanB_of_all {l : List Char} (hne : l ≠ [])
    (h : ∀ c ∈ l, isPyWs c = false) : cleanB l = true :=
  cleanB_intro hne (h _ (List.head_mem hne)) (h _ (List.getLast_mem hne))

theorem containsSub_break (xs ys : List Char) :
    containsSub (xs ++ '\n' :: '\n' :: ys) ['\n', '\n'] = true := by
  induction xs with
  | nil => simp [containsSub, List.isPrefixOf]
  | cons c xs ih => simp [containsSub, ih]

theorem splitParas_c2 :
    splitParas c2text.data =
      [List.replicate 1990 'a', List.replicate 50 'b'] := by
  have hx : ∀ c ∈ List.replicate 1990 'a', ¬ c = '\n' := by
    intro c hc; rw [List.eq_of_mem_replicate hc]; decide
  have hy : ∀ c ∈ List.replicate 50 'b', ¬ c = '\n' := by
    intro c hc; rw [List.eq_of_mem_replicate hc]; decide
  show splitParasGo
    ((List.replicate 1990 'a' ++ '\n' :: '\n' :: List.replicate 50 'b').length + 1)
    [] (List.replicate 1990 'a' ++ '\n' :: '\n' :: List.replicate 50 'b') = _
  have hlen : (List.replicate 1990 'a' ++
      '\n' :: '\n' :: List.replicate 50 'b').length + 1 =
      (List.replicate 1990 'a').length + 53 := by
    simp [List.length_append, List.length_replicate]
  rw [hlen, splitParasGo_scan _ hx 53 [] _, List.nil_append]
  have h53 : (53 : Nat) = 52 + 1 := rfl
  have hyws : ∀ c ∈ (List.replicate 50 'b').takeWhile isPyWs, ¬ c = '\n' := by
    have h0 : (List.replicate 50 'b').takeWhile isPyWs = [] := by decide
    rw [h0]
    intro c hc
    cases hc
  rw [h53, splitParasGo_break _ 52 _ hyws]
  have h52 : (52 : Nat) = (List.replicate 50 'b').length + (1 + 1) := by
    simp [List.length_replicate]
  rw [h52, splitParasGo_no_nl _ hy 1 [], List.nil_append]


theorem cleanB_repl_a : cleanB (List.replicate 1990 'a') = true := by
  apply cleanB_of_all
  · simp
  · intro c hc; rw [List.eq_of_mem_replicate hc]; decide

theorem cleanB_repl_b : cleanB (List.replicate 50 'b') = true := by
  apply cleanB_of_all
  · simp
  · intro c hc; rw [List.eq_of_mem_replicate hc]; decide

theorem unitsOf_c2 :
    unitsOf c2text.data =
      [(List.replicate 1990 'a', false), (List.replicate 50 'b', false)] := by
  unfold unitsOf
  rw [splitParas_c2]
  have hua : unitsOfPara (List.replicate 1990 'a') =
      [(List.replicate 1990 'a', false)] := by
    unfold unitsOfPara
    rw [pyStrip_eq_self cleanB_repl_a]
    rw [if_neg (by simp), if_neg (by simp [CHUNK_SIZE_CHARS])]
  have hub : unitsOfPara (List.replicate 50 'b') =
      [(List.replicate 50 'b', false)] := by
    unfold unitsOfPara
    rw [pyStrip_eq_self cleanB_repl_b]
    rw [if_neg (by simp), if_neg (by simp [CHUNK_SIZE_CHARS])]
  rw [List.flatMap_cons, List.flatMap_cons, List.flatMap_nil, hua, hub]
  rfl

theorem chunkCore_c2 :
    chunkCore c2text.data =
      (List.replicate 50 'b', [List.replicate 1990 'a']) := by
  rw [chunkCore_eq_units, unitsOf_c2]
  have s1 : ustep ([], []) (List.replicate 1990 'a', false) =
      (List.replicate 1990 'a', []) := by
    unfold ustep
    rw [if_pos (by simp [CHUNK_SIZE_CHARS])]
    rw [List.nil_append]
    rw [pyStrip_ws_append (by intro c hc; fin_cases hc <;> decide) cleanB_repl_a]
  have s2 : ustep (List.replicate 1990 'a', []) (List.replicate 50 'b', false) =
      (List.replicate 50 'b', [List.replicate 1990 'a']) := by
    unfold ustep
    rw [if_neg (by simp [CHUNK_SIZE_CHARS])]
    rw [if_neg (by simp)]
    rfl
  rw [List.foldl_cons, s1, List.foldl_cons, s2]
  rfl

theorem chunk_text_c2 :
    chunk_text c2text = [String.mk (List.replicate 1990 'a')] := by
  unfold chunk_text
  rw [chunkCore_c2]
  simp [MIN_CHUNK_CHARS, List.filter_cons]

/-! ### Lemmas: cleanliness of the split units and the block partition of chunk_text -/

theorem head?_dropWhile_all (p : Char → Bool) (l : List Char) :
    (l.dropWhile p).head?.all (fun c => !p c) = true := by
  cases h : l.dropWhile p with
  | nil => rfl
  | cons a tl =>
    have hne : l.dropWhile p ≠ [] := by simp [h]
    have hnot := List.head_dropWhile_not p l hne
    have h2 : some ((l.dropWhile p).head hne) = some a := by
      rw [← List.head?_eq_head hne, h]
      rfl
    have h3 : p a = false := by rw [← Option.some.inj h2]; exact hnot
    simp [h3]

theorem getLast?_all_of_suffix {P : Char → Bool} {s l : List Char}
    (hs : s <:+ l) (h : l.getLast?.all P = true) :
    s.getLast?.all P = true := by
  by_cases hne : s = []
  · subst hne; rfl
  · obtain ⟨t, rfl⟩ := hs
    rw [List.getLast?_append] at h
    rw [List.getLast?_eq_getLast s hne] at h ⊢
    simpa using h

theorem sepOf_ws (b : Bool) : ∀ c ∈ sepOf b, isPyWs c = true := by
  cases b <;> decide

theorem getLast?_all_append_right {P : Char → Bool} (x : List Char)
    {y : List Char} (hy : y ≠ []) (h : y.getLast?.all P = true) :
    (x ++ y).getLast?.all P = true := by
  rw [List.getLast?_append]
  rw [List.getLast?_eq_getLast y hy] at h ⊢
  simpa using h


theorem splitSentencesGo_clean :
    ∀ (fuel : Nat) (prev : Option Char) (cur rest : List Char),
      rest.length < fuel →
      (match prev with
       | none => cur = []
       | some p => cur.getLast? = some p) →
      (cur = [] → rest.head?.all (fun c => !isPyWs c) = true) →
      (cur ≠ [] → cur.head?.all (fun c => !isPyWs c) = true) →
      (cur ++ rest).getLast?.all (fun c => !isPyWs c) = true →
      cur ++ rest ≠ [] →
      ∀ s ∈ splitSentencesGo fuel prev cur rest, cleanB s = true := by
  intro fuel
  induction fuel with
  | zero => intro prev cur rest hf; omega
  | succ fuel ih =>
    intro prev cur rest hf hprev hh0 hh1 hlast hne s hs
    cases rest with
    | nil =>
      simp only [splitSentencesGo, List.mem_singleton] at hs
      subst hs
      rw [List.append_nil] at hlast hne
      rw [cleanB_iff]
      exact ⟨hne, hh1 hne, hlast⟩
    | cons c rest2 =>
      simp only [splitSentencesGo] at hs
      split at hs
      case isTrue hcond =>
        simp only [Bool.and_eq_true, Bool.or_eq_true, decide_eq_true_eq]
          at hcond
        obtain ⟨hwc, hpunct⟩ := hcond
        rcases List.mem_cons.mp hs with rfl | hs
        · -- the flushed piece: it ends in the punctuation character
          obtain ⟨p, hp⟩ : ∃ p, prev = some p := by
            rcases hpunct with (h | h) | h <;> exact ⟨_, h⟩
          rw [hp] at hprev
          have hcne : s ≠ [] := by
            intro hnil
            rw [hnil] at hprev
            cases hprev
          have hpw : (!isPyWs p) = true := by
            rcases hpunct with (h | h) | h <;>
              (rw [hp] at h; cases Option.some.inj h; decide)
          rw [cleanB_iff]
          refine ⟨hcne, hh1 hcne, ?_⟩
          rw [hprev]
          simpa using hpw
        · -- pieces of the remainder after the whitespace run
          have hdse : rest2.dropWhile isPyWs <:+ rest2 :=
            List.dropWhile_suffix _
          have htail : (c :: rest2).getLast?.all
              (fun c => !isPyWs c) = true :=
            getLast?_all_of_suffix ⟨cur, rfl⟩ hlast
          have hdne : rest2.dropWhile isPyWs ≠ [] := by
            intro hnil
            have hallws : ∀ x ∈ rest2, isPyWs x = true :=
              List.dropWhile_eq_nil_iff.mp hnil
            have hg := List.getLast_mem (List.cons_ne_nil c rest2)
            have hgw : isPyWs ((c :: rest2).getLast
                (List.cons_ne_nil c rest2)) = true := by
              rcases List.mem_cons.mp hg with h | h
              · rw [h]; exact hwc
              · exact hallws _ h
            rw [List.getLast?_eq_getLast _ (List.cons_ne_nil c rest2)]
              at htail
            simp [hgw] at htail
          refine ih none [] (rest2.dropWhile isPyWs) ?_ rfl
            (fun _ => head?_dropWhile_all isPyWs rest2)
            (fun hcontra => absurd rfl hcontra) ?_ (by simpa using hdne) s hs
          · have h1 : (rest2.dropWhile isPyWs).length ≤ rest2.length :=
              hdse.sublist.length_le
            simp only [List.length_cons] at hf
            omega
          · rw [List.nil_append]
            exact getLast?_all_of_suffix hdse
              (getLast?_all_of_suffix ⟨cur ++ [c], by simp⟩ hlast)
      case isFalse hcond =>
        have hlast2 : ((cur ++ [c]) ++ rest2).getLast?.all
            (fun c => !isPyWs c) = true := by
          rw [List.append_assoc, List.singleton_append]
          exact hlast
        refine ih (some c) (cur ++ [c]) rest2 ?_ (List.getLast?_concat cur)
          (fun h => absurd h (by simp)) (fun _ => ?_) hlast2 (by simp) s hs
        · simp only [List.length_cons] at hf
          omega
        · cases hcur : cur with
          | nil =>
            have := hh0 hcur
            simpa using this
          | cons a tl =>
            rw [← hcur, List.head?_append_of_ne_nil cur (by simp [hcur])]
            exact hh1 (by simp [hcur])


theorem splitSentences_clean {p : List Char} (hc : cleanB p = true) :
    ∀ s ∈ splitSentences p, cleanB s = true := by
  obtain ⟨hne, hh, hl⟩ := cleanB_iff.mp hc
  exact splitSentencesGo_clean (p.length + 1) none [] p (by omega) rfl
    (fun _ => hh) (fun h => absurd rfl h) (by simpa using hl)
    (by simpa using hne)

theorem unitsOf_clean (text : List Char) :
    ∀ u ∈ unitsOf text, cleanB u.1 = true := by
  intro u hu
  unfold unitsOf at hu
  rw [List.mem_flatMap] at hu
  obtain ⟨para, -, hu⟩ := hu
  unfold unitsOfPara at hu
  rcases pyStrip_clean para with h0 | h0
  · rw [h0] at hu
    simp at hu
  · have hne := (cleanB_iff.mp h0).1
    rw [if_neg (by simp [hne])] at hu
    by_cases hlen : CHUNK_SIZE_CHARS < (pyStrip para).length
    · rw [if_pos hlen] at hu
      rw [List.mem_map] at hu
      obtain ⟨sn, hsn, rfl⟩ := hu
      exact splitSentences_clean h0 sn hsn
    · rw [if_neg hlen] at hu
      simp only [List.mem_singleton] at hu
      rw [hu]
      exact h0

theorem glueBlock_nil : glueBlock [] = [] := rfl

theorem glueBlock_cons (u : List Char × Bool)
    (rest : List (List Char × Bool)) :
    glueBlock (u :: rest) =
      rest.foldl (fun acc v => acc ++ sepOf v.2 ++ v.1) u.1 := rfl

theorem glueBlock_cons_append (u : List Char × Bool)
    (rest : List (List Char × Bool)) (v : List Char × Bool) :
    glueBlock ((u :: rest) ++ [v]) =
      glueBlock (u :: rest) ++ sepOf v.2 ++ v.1 := by
  rw [List.cons_append, glueBlock_cons, glueBlock_cons, List.foldl_append]
  rfl

theorem glueBlock_clean :
    ∀ (bs : List (List Char × Bool)), bs ≠ [] →
      (∀ u ∈ bs, cleanB u.1 = true) → cleanB (glueBlock bs) = true := by
  intro bs
  induction bs using List.reverseRecOn with
  | nil => intro h; cases h rfl
  | append_singleton bs v ih =>
    intro _ hclean
    cases bs with
    | nil =>
      rw [List.nil_append]
      exact hclean v (by simp)
    | cons u rest =>
      rw [glueBlock_cons_append]
      exact cleanB_append (sepOf v.2)
        (ih (by simp) (fun w hw => hclean w (List.mem_append_left _ hw)))
        (hclean v (List.mem_append_right _ (by simp)))

theorem glueBlock_eq_nil_iff {bs : List (List Char × Bool)}
    (hclean : ∀ u ∈ bs, cleanB u.1 = true) :
    glueBlock bs = [] ↔ bs = [] := by
  constructor
  · intro h
    by_contra hne
    have := (cleanB_iff.mp (glueBlock_clean bs hne hclean)).1
    exact this h
  · intro h; rw [h]; rfl


theorem ustep_abs (g : List (List Char × Bool) × List (List (List Char × Bool)))
    (u : List Char × Bool) (hu : cleanB u.1 = true)
    (hg : ∀ v ∈ g.1, cleanB v.1 = true) :
    ustep (glueBlock g.1, g.2.map glueBlock) u =
      (glueBlock (gstep g u).1, (gstep g u).2.map glueBlock) := by
  unfold ustep gstep
  by_cases hfit : (glueBlock g.1).length + u.1.length + 2 ≤ CHUNK_SIZE_CHARS
  · rw [if_pos hfit, if_pos hfit]
    cases hg1 : g.1 with
    | nil =>
      have h0 : glueBlock ([] : List (List Char × Bool)) = [] := rfl
      rw [h0, List.nil_append, pyStrip_ws_append (sepOf_ws u.2) hu]
      rfl
    | cons v rest =>
      rw [hg1] at hg
      have hclean : cleanB (glueBlock (v :: rest)) = true :=
        glueBlock_clean _ (by simp) hg
      rw [pyStrip_eq_self (cleanB_append (sepOf u.2) hclean hu),
        glueBlock_cons_append]
  · rw [if_neg hfit, if_neg hfit]
    by_cases hemp : g.1.isEmpty
    · have hg1 : g.1 = [] := List.isEmpty_iff.mp hemp
      have hge : (glueBlock g.1).isEmpty = true := by rw [hg1]; rfl
      rw [if_pos hge, if_pos hemp]
      rfl
    · have hg1 : g.1 ≠ [] := by simpa [List.isEmpty_iff] using hemp
      have hgne : glueBlock g.1 ≠ [] := fun h =>
        hg1 ((glueBlock_eq_nil_iff hg).mp h)
      rw [if_neg (by simpa [List.isEmpty_iff] using hgne), if_neg hemp,
        List.map_append]
      rfl

theorem gstep_fst_clean {g : List (List Char × Bool) ×
      List (List (List Char × Bool))} {u : List Char × Bool}
    (hu : cleanB u.1 = true) (hg : ∀ v ∈ g.1, cleanB v.1 = true) :
    ∀ v ∈ (gstep g u).1, cleanB v.1 = true := by
  intro v hv
  unfold gstep at hv
  by_cases hfit : (glueBlock g.1).length + u.1.length + 2 ≤ CHUNK_SIZE_CHARS
  · rw [if_pos hfit] at hv
    rcases List.mem_append.mp hv with h | h
    · exact hg v h
    · simp only [List.mem_singleton] at h
      rw [h]
      exact hu
  · rw [if_neg hfit] at hv
    by_cases hemp : g.1.isEmpty
    · rw [if_pos hemp] at hv
      simp only [List.mem_singleton] at hv
      rw [hv]
      exact hu
    · rw [if_neg hemp] at hv
      simp only [List.mem_singleton] at hv
      rw [hv]
      exact hu

theorem foldl_ustep_abs (us : List (List Char × Bool)) :
    ∀ g, (∀ u ∈ us, cleanB u.1 = true) →
      (∀ v ∈ g.1, cleanB v.1 = true) →
      us.foldl ustep (glueBlock g.1, g.2.map glueBlock) =
        (glueBlock (us.foldl gstep g).1,
          (us.foldl gstep g).2.map glueBlock) := by
  induction us with
  | nil => intro g _ _; rfl
  | cons u us ih =>
    intro g hus hg
    rw [List.foldl_cons, List.foldl_cons,
      ustep_abs g u (hus u (List.mem_cons_self _ _)) hg]
    exact ih (gstep g u) (fun w hw => hus w (List.mem_cons_of_mem _ hw))
      (gstep_fst_clean (hus u (List.mem_cons_self _ _)) hg)

theorem foldl_gstep_partition (us : List (List Char × Bool)) :
    ∀ g : List (List Char × Bool) × List (List (List Char × Bool)),
      (∀ bs ∈ g.2, bs ≠ []) →
      (us.foldl gstep g).2.flatten ++ (us.foldl gstep g).1 =
          g.2.flatten ++ g.1 ++ us
        ∧ ∀ bs ∈ (us.foldl gstep g).2, bs ≠ [] := by
  induction us with
  | nil => intro g hg; exact ⟨by simp, hg⟩
  | cons u us ih =>
    intro g hg
    have hblocks : ∀ bs ∈ (gstep g u).2, bs ≠ [] := by
      intro bs hbs
      unfold gstep at hbs
      by_cases hfit : (glueBlock g.1).length + u.1.length + 2 ≤
          CHUNK_SIZE_CHARS
      · rw [if_pos hfit] at hbs; exact hg bs hbs
      · rw [if_neg hfit] at hbs
        by_cases hemp : g.1.isEmpty
        · rw [if_pos hemp] at hbs; exact hg bs hbs
        · rw [if_neg hemp] at hbs
          rcases List.mem_append.mp hbs with h | h
          · exact hg bs h
          · simp only [List.mem_singleton] at h
            rw [h]
            simpa [List.isEmpty_iff] using hemp
    obtain ⟨h1, h2⟩ := ih (gstep g u) hblocks
    rw [List.foldl_cons]
    refine ⟨?_, h2⟩
    rw [h1]
    unfold gstep
    by_cases hfit : (glueBlock g.1).length + u.1.length + 2 ≤
        CHUNK_SIZE_CHARS
    · rw [if_pos hfit]
      simp
    · rw [if_neg hfit]
      by_cases hemp : g.1.isEmpty
      · rw [if_pos hemp]
        have : g.1 = [] := List.isEmpty_iff.mp hemp
        simp [this]
      · rw [if_neg hemp]
        simp [List.flatten_append]


theorem chunk_text_blocks (text : String) :
    ∃ bss : List (List (List Char × Bool)),
      (∀ bs ∈ bss, bs ≠ []) ∧
      bss.flatten = unitsOf text.data ∧
      chunk_text text =
        ((bss.map glueBlock).filter
          (fun c => MIN_CHUNK_CHARS ≤ c.length)).map String.mk := by
  have hclean := unitsOf_clean text.data
  obtain ⟨hpart, hblocks⟩ :=
    foldl_gstep_partition (unitsOf text.data) ([], []) (by simp)
  have habs : (unitsOf text.data).foldl ustep ([], []) =
      (glueBlock ((unitsOf text.data).foldl gstep ([], [])).1,
        ((unitsOf text.data).foldl gstep ([], [])).2.map glueBlock) :=
    foldl_ustep_abs (unitsOf text.data) ([], []) hclean (by simp)
  set G := (unitsOf text.data).foldl gstep ([], []) with hG
  simp only [List.flatten_nil, List.nil_append] at hpart
  have hGclean : ∀ v ∈ G.1, cleanB v.1 = true := by
    intro v hv
    apply hclean
    rw [← hpart]
    exact List.mem_append_right _ hv
  refine ⟨if G.1.isEmpty then G.2 else G.2 ++ [G.1], ?_, ?_, ?_⟩
  · intro bs hbs
    by_cases hemp : G.1.isEmpty
    · rw [if_pos hemp] at hbs
      exact hblocks bs hbs
    · rw [if_neg hemp] at hbs
      rcases List.mem_append.mp hbs with h | h
      · exact hblocks bs h
      · simp only [List.mem_singleton] at h
        rw [h]
        simpa [List.isEmpty_iff] using hemp
  · by_cases hemp : G.1.isEmpty
    · rw [if_pos hemp]
      have h0 : G.1 = [] := List.isEmpty_iff.mp hemp
      rw [h0, List.append_nil] at hpart
      exact hpart
    · rw [if_neg hemp, List.flatten_append]
      simpa using hpart
  · unfold chunk_text
    rw [chunkCore_eq_units, habs]
    by_cases hemp : G.1.isEmpty
    · have h0 : G.1 = [] := List.isEmpty_iff.mp hemp
      rw [if_pos hemp]
      simp [h0, glueBlock_nil]
    · have h0 : G.1 ≠ [] := by simpa [List.isEmpty_iff] using hemp
      have hgne : glueBlock G.1 ≠ [] := fun h =>
        h0 ((glueBlock_eq_nil_iff hGclean).mp h)
      rw [if_neg hemp]
      have hge : (glueBlock G.1).isEmpty = false := by
        simpa [List.isEmpty_iff] using hgne
      simp [hge, List.map_append]

/-! ### Lemmas about main(): early exits and verification -/

theorem mainRun_noop (inp : RunInput)
    (h1 : (changesOf inp).new_files = [])
    (h2 : (changesOf inp).changed_files = []) :
    (mainRun inp).deleted_orphans = [] ∧ (mainRun inp).staged = [] ∧
    (mainRun inp).chunks_created = 0 ∧ (mainRun inp).uploaded_count = 0 ∧
    (mainRun inp).archived_chunks = [] ∧
    (mainRun inp).archived_sources = [] ∧
    (mainRun inp).tracking_saved = false ∧
    (mainRun inp).final_tracking = inp.tracking := by
  have hproc : (toProcessOf inp).isEmpty = true := by
    unfold toProcessOf
    rw [h1, h2]
    rfl
  unfold mainRun
  by_cases ha : inp.api_key_present <;> by_cases hc : inp.connect_ok <;>
    by_cases hf : (filesOf inp).isEmpty <;>
      simp [ha, hc, hf, hproc, skipResult]

theorem mainRun_no_warning (inp : RunInput) :
    (mainRun inp).verification_warning = false := by
  unfold mainRun
  by_cases ha : inp.api_key_present <;> by_cases hc : inp.connect_ok <;>
    by_cases hf : (filesOf inp).isEmpty <;>
      by_cases hp : (toProcessOf inp).isEmpty <;>
        simp [ha, hc, hf, hp, skipResult, verify_upload]
/-! ### Lemmas about the tracking rewrite of steps 5, 8 and 9 -/

theorem step5_keys (fps : List SourceFile) :
    ∀ acc : List ChunkRecord × List (String × StagedDoc) ×
        List (String × TrackEntry),
      (acc.2.1.map Prod.fst ++ fps.map (fun f => f.name)).Nodup →
      acc.2.2.map Prod.fst = acc.2.1.map Prod.fst →
      (fps.foldl step5fn acc).2.1.map Prod.fst =
          acc.2.1.map Prod.fst ++ fps.map (fun f => f.name)
        ∧ (fps.foldl step5fn acc).2.2.map Prod.fst =
          acc.2.1.map Prod.fst ++ fps.map (fun f => f.name) := by
  induction fps with
  | nil => intro acc _ hsync; exact ⟨by simp, by simp [hsync]⟩
  | cons fp fps ih =>
    intro acc hnd hsync
    rw [List.foldl_cons]
    have hfresh1 : fp.name ∉ acc.2.1.map Prod.fst := fun hmem =>
      (List.nodup_append.mp hnd).2.2 hmem
        (by simp)
    have hfresh2 : fp.name ∉ acc.2.2.map Prod.fst := by
      rw [hsync]; exact hfresh1
    have k1 : (step5fn acc fp).2.1.map Prod.fst =
        acc.2.1.map Prod.fst ++ [fp.name] := by
      show (dictSet acc.2.1 fp.name _).map Prod.fst = _
      rw [dictSet_fresh _ _ _ hfresh1, List.map_append]
      rfl
    have k2 : (step5fn acc fp).2.2.map Prod.fst =
        acc.2.1.map Prod.fst ++ [fp.name] := by
      show (dictSet acc.2.2 fp.name _).map Prod.fst = _
      rw [dictSet_fresh _ _ _ hfresh2, List.map_append, hsync]
      rfl
    obtain ⟨ih1, ih2⟩ := ih (step5fn acc fp)
      (by rw [k1]; simpa using hnd) (k2.trans k1.symm)
    constructor
    · rw [ih1, k1]; simp
    · rw [ih2, k1]; simp

theorem step8_accum (now : String) (items : List (String × StagedDoc)) :
    ∀ acc : List String × List String × List (String × TrackEntry),
      (items.foldl (step8fn now) acc).1 = acc.1 ++ items.map Prod.fst
      ∧ (items.foldl (step8fn now) acc).2.1 =
          acc.2.1 ++ items.map Prod.fst
      ∧ (items.foldl (step8fn now) acc).2.2.map Prod.fst =
          acc.2.2.map Prod.fst := by
  induction items with
  | nil => intro acc; exact ⟨by simp, by simp, rfl⟩
  | cons it items ih =>
    intro acc
    rw [List.foldl_cons]
    obtain ⟨i1, i2, i3⟩ := ih (step8fn now acc it)
    refine ⟨?_, ?_, ?_⟩
    · rw [i1]
      show (acc.1 ++ [it.1]) ++ _ = _
      simp
    · rw [i2]
      show (acc.2.1 ++ [it.1]) ++ _ = _
      simp
    · rw [i3]
      show (dictModify acc.2.2 it.1 _).map Prod.fst = _
      rw [dictModify_keys]

theorem step9_keys (tfiles : List (String × TrackEntry))
    (ufs : List SourceFile) :
    ∀ d : List (String × TrackEntry),
      (d.map Prod.fst ++ ufs.map (fun f => f.name)).Nodup →
      (∀ fp ∈ ufs, (lookupEntry tfiles fp.name).isSome) →
      (ufs.foldl (step9fn tfiles) d).map Prod.fst =
        d.map Prod.fst ++ ufs.map (fun f => f.name) := by
  induction ufs with
  | nil => intro d _ _; simp
  | cons fp ufs ih =>
    intro d hnd hsome
    rw [List.foldl_cons]
    have hfresh : fp.name ∉ d.map Prod.fst := fun hmem =>
      (List.nodup_append.mp hnd).2.2 hmem (by simp)
    obtain ⟨e, he⟩ :=
      Option.isSome_iff_exists.mp (hsome fp (List.mem_cons_self _ _))
    have k1 : (step9fn tfiles d fp).map Prod.fst =
        d.map Prod.fst ++ [fp.name] := by
      unfold step9fn
      rw [he]
      show (dictSet d fp.name e).map Prod.fst = _
      rw [dictSet_fresh _ _ _ hfresh, List.map_append]
      rfl
    rw [ih (step9fn tfiles d fp) (by rw [k1]; simpa using hnd)
      (fun f hf => hsome f (List.mem_cons_of_mem _ hf)), k1]
    simp


theorem mem_filter_names {files : List SourceFile} {p : SourceFile → Bool}
    {n : String} (hn : n ∈ (files.filter p).map (fun f => f.name)) :
    ∃ f ∈ files, p f = true ∧ f.name = n := by
  rw [List.mem_map] at hn
  obtain ⟨f, hf, rfl⟩ := hn
  rw [List.mem_filter] at hf
  exact ⟨f, hf.1, hf.2, rfl⟩

theorem filter_names_nodup (files : List SourceFile) (p : SourceFile → Bool)
    (hnodup : (files.map (fun f => f.name)).Nodup) :
    ((files.filter p).map (fun f => f.name)).Nodup :=
  (List.Sublist.map _ (List.filter_sublist files)).nodup hnodup

theorem isNewFile_lookup {tracked : List (String × TrackEntry)}
    {f : SourceFile} (h : isNewFile tracked f = true) :
    lookupEntry tracked f.name = none := by
  unfold isNewFile at h
  exact Option.isNone_iff_eq_none.mp h

theorem isChangedFile_lookup {tracked : List (String × TrackEntry)}
    {f : SourceFile} (h : isChangedFile tracked f = true) :
    (lookupEntry tracked f.name).isSome = true := by
  unfold isChangedFile at h
  cases hl : lookupEntry tracked f.name with
  | none => rw [hl] at h; cases h
  | some e => rfl

theorem isUnchangedFile_lookup {tracked : List (String × TrackEntry)}
    {f : SourceFile} (h : isUnchangedFile tracked f = true) :
    (lookupEntry tracked f.name).isSome = true := by
  unfold isUnchangedFile at h
  cases hl : lookupEntry tracked f.name with
  | none => rw [hl] at h; cases h
  | some e => rfl

theorem new_names_disj_of_lookup {tracked : List (String × TrackEntry)}
    {files : List SourceFile} {n : String} {q : SourceFile → Bool}
    (hq : ∀ f, q f = true → (lookupEntry tracked f.name).isSome = true)
    (h1 : n ∈ (files.filter (isNewFile tracked)).map (fun f => f.name))
    (h2 : n ∈ (files.filter q).map (fun f => f.name)) : False := by
  obtain ⟨f1, -, hp1, hn1⟩ := mem_filter_names h1
  obtain ⟨f2, -, hp2, hn2⟩ := mem_filter_names h2
  have e1 := isNewFile_lookup hp1
  have e2 := hq f2 hp2
  rw [hn1] at e1
  rw [hn2] at e2
  rw [e1] at e2
  cases e2

theorem changed_unchanged_names_disj {tracked : List (String × TrackEntry)}
    {files : List SourceFile} {n : String}
    (hnodup : (files.map (fun f => f.name)).Nodup)
    (h1 : n ∈ (files.filter (isChangedFile tracked)).map (fun f => f.name))
    (h2 : n ∈ (files.filter (isUnchangedFile tracked)).map
      (fun f => f.name)) : False := by
  obtain ⟨f1, hm1, hp1, hn1⟩ := mem_filter_names h1
  obtain ⟨f2, hm2, hp2, hn2⟩ := mem_filter_names h2
  have heq : f1 = f2 :=
    List.inj_on_of_nodup_map hnodup hm1 hm2 (hn1.trans hn2.symm)
  subst heq
  have htri := (classify_trichotomy tracked f1).2.2.2
  rw [hp1, hp2] at htri
  cases htri


theorem mainRun_tracking_rewrite (inp : RunInput)
    (ha : inp.api_key_present = true) (hc : inp.connect_ok = true)
    (hproc : toProcessOf inp ≠ [])
    (hnodup : ((filesOf inp).map (fun f => f.name)).Nodup) :
    (mainRun inp).final_tracking.files.map Prod.fst =
      (toProcessOf inp).map (fun f => f.name) ++
        (changesOf inp).unchanged_files.map (fun f => f.name)
    ∧ ∀ n ∈ inp.tracking.files.map Prod.fst,
        n ∉ (filesOf inp).map (fun f => f.name) →
        lookupEntry (mainRun inp).final_tracking.files n = none := by
  have hfe : (filesOf inp).isEmpty = false := by
    rcases h : filesOf inp with _ | ⟨f, fs⟩
    · exfalso
      apply hproc
      unfold toProcessOf changesOf
      rw [h]
      rfl
    · rfl
  have hpe : (toProcessOf inp).isEmpty = false := by
    rcases h : toProcessOf inp with _ | _
    · exact absurd h hproc
    · rfl
  have hmain : (mainRun inp).final_tracking.files =
      (changesOf inp).unchanged_files.foldl (step9fn inp.tracking.files)
        ((((toProcessOf inp).foldl step5fn ([], [], [])).2.1).foldl
          (step8fn inp.now)
          ([], [], ((toProcessOf inp).foldl step5fn ([], [], [])).2.2)).2.2 := by
    unfold mainRun
    rw [if_neg (by simp [ha]), if_neg (by simp [hc]),
      if_neg (by simp [hfe]), if_neg (by simp [hpe])]
  -- the classified lists as filters
  have hch := analyze_changes_eq (filesOf inp) inp.tracking.files
  have hnew : (changesOf inp).new_files =
      (filesOf inp).filter (isNewFile inp.tracking.files) := by
    unfold changesOf; rw [hch]
  have hchg : (changesOf inp).changed_files =
      (filesOf inp).filter (isChangedFile inp.tracking.files) := by
    unfold changesOf; rw [hch]
  have hunc : (changesOf inp).unchanged_files =
      (filesOf inp).filter (isUnchangedFile inp.tracking.files) := by
    unfold changesOf; rw [hch]
  -- name lists are nodup and pairwise disjoint
  have htp_nodup : ((toProcessOf inp).map (fun f => f.name)).Nodup := by
    unfold toProcessOf
    rw [List.map_append, List.nodup_append, hnew, hchg]
    refine ⟨filter_names_nodup _ _ hnodup, filter_names_nodup _ _ hnodup, ?_⟩
    intro n h1 h2
    exact new_names_disj_of_lookup
      (fun f hf => isChangedFile_lookup hf) h1 h2
  have htp_unc_disj : ∀ n ∈ (toProcessOf inp).map (fun f => f.name),
      n ∉ (changesOf inp).unchanged_files.map (fun f => f.name) := by
    intro n hn hn2
    rw [hunc] at hn2
    unfold toProcessOf at hn
    rw [List.map_append, List.mem_append, hnew, hchg] at hn
    rcases hn with hn | hn
    · exact new_names_disj_of_lookup
        (fun f hf => isUnchangedFile_lookup hf) hn hn2
    · exact changed_unchanged_names_disj hnodup hn hn2
  have hunc_nodup : ((changesOf inp).unchanged_files.map
      (fun f => f.name)).Nodup := by
    rw [hunc]
    exact filter_names_nodup _ _ hnodup
  -- keys after step 5
  obtain ⟨h5a, h5b⟩ := step5_keys (toProcessOf inp) ([], [], [])
    (by simpa using htp_nodup) rfl
  -- keys after step 8
  obtain ⟨-, -, h8⟩ := step8_accum inp.now
    (((toProcessOf inp).foldl step5fn ([], [], [])).2.1)
    ([], [], ((toProcessOf inp).foldl step5fn ([], [], [])).2.2)
  -- keys after step 9
  have h9 := step9_keys inp.tracking.files
    ((changesOf inp).unchanged_files)
    ((((toProcessOf inp).foldl step5fn ([], [], [])).2.1).foldl
      (step8fn inp.now)
      ([], [], ((toProcessOf inp).foldl step5fn ([], [], [])).2.2)).2.2
    (by
      rw [h8, h5b]
      simp only [List.nil_append]
      rw [List.nodup_append]
      exact ⟨htp_nodup, hunc_nodup, htp_unc_disj⟩)
    (by
      intro fp hfp
      rw [hunc] at hfp
      rw [List.mem_filter] at hfp
      exact isUnchangedFile_lookup hfp.2)
  have hkeys : (mainRun inp).final_tracking.files.map Prod.fst =
      (toProcessOf inp).map (fun f => f.name) ++
        (changesOf inp).unchanged_files.map (fun f => f.name) := by
    rw [hmain, h9, h8, h5b]
    simp
  refine ⟨hkeys, ?_⟩
  intro n hn hnot
  rw [lookupEntry_eq_none_iff, hkeys]
  rw [List.mem_append]
  rintro (h | h)
  · unfold toProcessOf at h
    rw [List.map_append, List.mem_append, hnew, hchg] at h
    rcases h with h | h
    · obtain ⟨f, hf, -, rfl⟩ := mem_filter_names h
      exact hnot (List.mem_map.mpr ⟨f, hf, rfl⟩)
    · obtain ⟨f, hf, -, rfl⟩ := mem_filter_names h
      exact hnot (List.mem_map.mpr ⟨f, hf, rfl⟩)
  · rw [hunc] at h
    obtain ⟨f, hf, -, rfl⟩ := mem_filter_names h
    exact hnot (List.mem_map.mpr ⟨f, hf, rfl⟩)

theorem chunk_text_min_length_aux (text : String) :
    ∀ c ∈ chunk_text text, MIN_CHUNK_CHARS ≤ c.length := by
  intro c hc
  simp only [chunk_text, List.mem_map, List.mem_filter] at hc
  obtain ⟨l, ⟨-, hl⟩, rfl⟩ := hc
  simpa [String.length] using hl

theorem c8_research_aux (name : String)
    (h1 : containsSub (pyLower name).data "gem".data = true)
    (h2 : containsSub (pyLower name).data "закон".data = false) :
    categorize_document name = "research" := by
  unfold categorize_document
  simp only [h1, h2]
  rfl

theorem c8_other_aux (name : String)
    (h1 : containsSub (pyLower name).data "закон".data = false)
    (h2 : containsSub (pyLower name).data "gem".data = false)
    (h3 : containsSub (pyLower name).data "expert".data = false)
    (h4 : containsSub (pyLower name).data "article".data = false)
    (h5 : containsSub (pyLower name).data "аналіз".data = false)
    (h6 : containsSub (pyLower name).data "договір".data = false)
    (h7 : containsSub (pyLower name).data "договор".data = false)
    (h8 : containsSub (pyLower name).data "nda".data = false) :
    categorize_document name = "other" := by
  unfold categorize_document
  simp only [h1, h2, h3, h4, h5, h6, h7, h8]
  rfl


/-! ### The claims -/

/-- C1: the specification requires that a document whose upload batch
fails remains staged — neither archived nor recorded in the Tracking
Store — so that the next run retries it.  The code violates this: with
one new 150-character document and an upsert collaborator that raises on
every batch, the run records the batch failure and uploads nothing, yet
still moves the staging artifact and the source document to the
archives and writes the tracking entry with `uploaded_at` set, marking
the run merely "partial".  This theorem evaluates the embedded `main()`
at that failing input. -/
theorem c1_failed_upload_still_archived :
    (mainRun failingUploadInput).upload_error_batches = [0]
    ∧ (mainRun failingUploadInput).uploaded_count = 0
    ∧ (mainRun failingUploadInput).staged = ["doc.md"]
    ∧ (mainRun failingUploadInput).archived_chunks = ["doc.md"]
    ∧ (mainRun failingUploadInput).archived_sources = ["doc.md"]
    ∧ (lookupEntry (mainRun failingUploadInput).final_tracking.files
        "doc.md").map (fun e => e.uploaded_at) =
      some (some "2026-01-01T00:00:00")
    ∧ (mainRun failingUploadInput).status = "partial" := by
  decide

/-- C2 counterexample: a 2042-character text (longer than
`CHUNK_SIZE_CHARS`) with a blank-line paragraph break for which
`chunk_text` returns exactly one chunk, the 50-character second
paragraph being dropped by the `MIN_CHUNK_CHARS` filter — so the claim
"more than one chunk, and every substring appears in exactly one output
chunk" fails. -/
theorem c2_counterexample :
    CHUNK_SIZE_CHARS < c2text.length
    ∧ containsSub c2text.data ['\n', '\n'] = true
    ∧ chunk_text c2text = [String.mk (List.replicate 1990 'a')]
    ∧ ¬ 1 < (chunk_text c2text).length := by
  have hlen : c2text.length = 2042 := by
    unfold c2text
    rw [String.length_mk]
    simp [List.length_append, List.length_replicate]
  refine ⟨by rw [hlen]; norm_num [CHUNK_SIZE_CHARS], ?_, chunk_text_c2, ?_⟩
  · exact containsSub_break (List.replicate 1990 'a') (List.replicate 50 'b')
  · rw [chunk_text_c2]
    simp

/-- C2 amended: `chunk_text` need not produce more than one chunk for
long texts with paragraph breaks, and input text may be lost (chunks
shorter than `MIN_CHUNK_CHARS` are dropped and inter-unit whitespace is
normalised); what does hold, for every input, is order preservation
without duplication at unit granularity: the unit sequence (stripped
paragraphs; sentences of oversized paragraphs) is partitioned, in
order, into consecutive nonempty blocks, each block is joined with its
separators into one pre-filter chunk, and the output keeps, in order,
exactly the chunks of length at least `MIN_CHUNK_CHARS`. -/
theorem c2_amended_unit_partition (text : String) :
    ∃ bss : List (List (List Char × Bool)),
      (∀ bs ∈ bss, bs ≠ []) ∧
      bss.flatten = unitsOf text.data ∧
      chunk_text text =
        ((bss.map glueBlock).filter
          (fun c => MIN_CHUNK_CHARS ≤ c.length)).map String.mk :=
  chunk_text_blocks text

/-- C4 counterexample: `generate_id` hashes the unescaped concatenation
`f"{filename}_{chunk_index}_{text[:50]}"`, so two calls whose three
inputs all differ can return the same identifier. -/
theorem c4_counterexample :
    generate_id "a_1" 2 "x" = generate_id "a" 1 "2_x"
    ∧ (("a_1" : String), (2 : Nat), ("x" : String)) ≠
        (("a" : String), (1 : Nat), ("2_x" : String)) := by
  exact ⟨by decide, by decide⟩

/-- C4 amended: `generate_id` is a pure deterministic function — equal
inputs give equal identifiers — and the identifier is always exactly 16
lowercase hexadecimal characters; but identifiers do NOT always differ
when an input differs: only the first 50 characters of the text are
hashed and the fields are joined with `_` without escaping (see the
counterexample). -/
theorem c4_amended_generate_id (filename : String) (chunk_index : Nat)
    (text : String) :
    generate_id filename chunk_index text =
      generate_id filename chunk_index text
    ∧ (generate_id filename chunk_index text).length = 16
    ∧ ∀ c ∈ (generate_id filename chunk_index text).data,
        isHexChar c = true :=
  ⟨rfl, generate_id_length _ _ _, generate_id_hex _ _ _⟩

/-- Witness for C4: at `("file.md", 0, "text")` the identifier has
length 16 and its first character is a hexadecimal digit. -/
theorem c4_amended_generate_id_witness :
    (generate_id "file.md" 0 "text").length = 16
    ∧ isHexChar '7' = true :=
  ⟨(c4_amended_generate_id "file.md" 0 "text").2.1,
   (c4_amended_generate_id "file.md" 0 "text").2.2 '7' (by decide)⟩

/-- C5: `analyze_changes` classifies every file into exactly one of
new / changed / unchanged using only the stored filename lookup and the
freshly computed content hash: new iff the filename is absent from the
store, changed iff present with a different stored hash, unchanged
otherwise; and the orphan list is exactly the concatenation, in order,
of the previously recorded chunk IDs of the changed files, so every
chunk ID previously recorded for a changed file is in it. -/
theorem c5_analyze_changes_classification (files : List SourceFile)
    (tracked : List (String × TrackEntry)) :
    (analyze_changes files tracked).new_files =
      files.filter (isNewFile tracked)
    ∧ (analyze_changes files tracked).changed_files =
      files.filter (isChangedFile tracked)
    ∧ (analyze_changes files tracked).unchanged_files =
      files.filter (isUnchangedFile tracked)
    ∧ (∀ fp : SourceFile,
        (isNewFile tracked fp || isChangedFile tracked fp ||
          isUnchangedFile tracked fp) = true
        ∧ (isNewFile tracked fp && isChangedFile tracked fp) = false
        ∧ (isNewFile tracked fp && isUnchangedFile tracked fp) = false
        ∧ (isChangedFile tracked fp && isUnchangedFile tracked fp) = false)
    ∧ (analyze_changes files tracked).orphan_chunk_ids =
      ((analyze_changes files tracked).changed_files).flatMap
        (orphanIdsOf tracked)
    ∧ ∀ fp ∈ files, isChangedFile tracked fp = true →
        ∀ cid ∈ orphanIdsOf tracked fp,
          cid ∈ (analyze_changes files tracked).orphan_chunk_ids := by
  have h := analyze_changes_eq files tracked
  refine ⟨by rw [h], by rw [h], by rw [h],
    fun fp => classify_trichotomy tracked fp, by rw [h], ?_⟩
  intro fp hfp hch cid hcid
  rw [h]
  exact List.mem_flatMap.mpr ⟨fp, List.mem_filter.mpr ⟨hfp, hch⟩, hcid⟩

/-- Witness for C5: the store maps `A.md` to hash `h1` with chunk IDs
`[a, b]`; the current `A.md` hashes to something else, is classified
changed, and both `a` and `b` are in the orphan list. -/
theorem c5_analyze_changes_classification_witness :
    isChangedFile storeA fileA = true
    ∧ "a" ∈ (analyze_changes [fileA] storeA).orphan_chunk_ids
    ∧ "b" ∈ (analyze_changes [fileA] storeA).orphan_chunk_ids := by
  refine ⟨by decide, ?_, ?_⟩
  · exact (c5_analyze_changes_classification [fileA] storeA).2.2.2.2.2
      fileA (by decide) (by decide) "a" (by decide)
  · exact (c5_analyze_changes_classification [fileA] storeA).2.2.2.2.2
      fileA (by decide) (by decide) "b" (by decide)

/-- C6: every chunk returned by `chunk_text` has length at least
`MIN_CHUNK_CHARS`; shorter chunks never appear in the output. -/
theorem c6_chunk_min_length (text : String) :
    ∀ c ∈ chunk_text text, MIN_CHUNK_CHARS ≤ c.length :=
  chunk_text_min_length_aux text

/-- Witness for C6: a 130-character text yields itself as its single
chunk, of length at least `MIN_CHUNK_CHARS`. -/
theorem c6_chunk_min_length_witness :
    MIN_CHUNK_CHARS ≤ (String.mk (List.replicate 130 'a')).length :=
  c6_chunk_min_length (String.mk (List.replicate 130 'a')) _ (by decide)

/-- C7: when the change analysis finds no new and no changed files, the
run performs zero deletions, zero chunking/staging, zero uploads and
zero archiving, does not save the tracking file, and leaves the
tracking store exactly as it was. -/
theorem c7_idempotent_run (inp : RunInput)
    (h1 : (changesOf inp).new_files = [])
    (h2 : (changesOf inp).changed_files = []) :
    (mainRun inp).deleted_orphans = [] ∧ (mainRun inp).staged = [] ∧
    (mainRun inp).chunks_created = 0 ∧ (mainRun inp).uploaded_count = 0 ∧
    (mainRun inp).archived_chunks = [] ∧
    (mainRun inp).archived_sources = [] ∧
    (mainRun inp).tracking_saved = false ∧
    (mainRun inp).final_tracking = inp.tracking :=
  mainRun_noop inp h1 h2

/-- Witness for C7: one source file whose stored hash matches its
content; the run archives nothing and the tracking store is returned
unchanged. -/
theorem c7_idempotent_run_witness :
    (mainRun upToDateInput).archived_chunks = []
    ∧ (mainRun upToDateInput).final_tracking = upToDateInput.tracking := by
  have h := c7_idempotent_run upToDateInput (by decide) (by decide)
  exact ⟨h.2.2.2.2.1, h.2.2.2.2.2.2.2⟩

/-- C8: `categorize_document` lowercases the filename and tests the
keywords in a fixed priority order in which the research keyword `gem`
precedes the analysis keyword `аналіз`: the mixed filename of the test
suite resolves to `research`; any name containing `gem` and `аналіз`
but no higher-priority keyword (`закон`) resolves to `research`; and a
name containing none of the keywords falls back to `other`. -/
theorem c8_categorize_priority :
    categorize_document "Gem 7 Аналіз змін NDA.md" = "research"
    ∧ (∀ name : String,
        containsSub (pyLower name).data "gem".data = true →
        containsSub (pyLower name).data "аналіз".data = true →
        containsSub (pyLower name).data "закон".data = false →
        categorize_document name = "research")
    ∧ (∀ name : String,
        containsSub (pyLower name).data "закон".data = false →
        containsSub (pyLower name).data "gem".data = false →
        containsSub (pyLower name).data "expert".data = false →
        containsSub (pyLower name).data "article".data = false →
        containsSub (pyLower name).data "аналіз".data = false →
        containsSub (pyLower name).data "договір".data = false →
        containsSub (pyLower name).data "договор".data = false →
        containsSub (pyLower name).data "nda".data = false →
        categorize_document name = "other") := by
  refine ⟨by decide, ?_, ?_⟩
  · intro name h1 _ h3
    exact c8_research_aux name h1 h3
  · intro name h1 h2 h3 h4 h5 h6 h7 h8
    exact c8_other_aux name h1 h2 h3 h4 h5 h6 h7 h8

/-- Witness for C8: concrete filenames for the research-priority clause
and the default clause. -/
theorem c8_categorize_priority_witness :
    categorize_document "gem аналіз.md" = "research"
    ∧ categorize_document "notes.md" = "other" :=
  ⟨c8_categorize_priority.2.1 "gem аналіз.md" (by decide) (by decide)
      (by decide),
   c8_categorize_priority.2.2 "notes.md" (by decide) (by decide)
      (by decide) (by decide) (by decide) (by decide) (by decide)
      (by decide)⟩

/-- C9: `chunk_text` returns the empty list on the empty string, on the
whitespace-only string of the test suite, and on every input consisting
only of whitespace. -/
theorem c9_whitespace_empty :
    chunk_text "" = []
    ∧ chunk_text "   \n\n   " = []
    ∧ ∀ t : String, (∀ c ∈ t.data, isPyWs c = true) → chunk_text t = [] :=
  ⟨by decide, by decide, fun _ h => chunk_text_of_ws h⟩

/-- Witness for C9: a space–tab–space string yields no chunks. -/
theorem c9_whitespace_empty_witness : chunk_text " \t " = [] :=
  c9_whitespace_empty.2.2 " \t " (by decide)

/-- C10: `verify_upload` returns `True` for every input — it reads only
the aggregate namespace statistics and never inspects the chunk ID
list — so the "verification found problems" branch of `main()` is
unreachable: no run ever sets the verification warning. -/
theorem c10_verification_never_fails :
    (∀ (stats : List (String × Nat)) (chunk_ids : List String),
      verify_upload stats chunk_ids = true)
    ∧ ∀ inp : RunInput, (mainRun inp).verification_warning = false :=
  ⟨fun _ _ => rfl, mainRun_no_warning⟩

/-- C3: after the final tracking update of a run that processed at
least one new or changed file, the tracking store's keys are exactly
the processed files followed by the unchanged files of the current
source directory; every previously tracked filename absent from the
current source directory is no longer found. -/
theorem c3_tracking_rewrite (inp : RunInput)
    (ha : inp.api_key_present = true) (hc : inp.connect_ok = true)
    (hproc : toProcessOf inp ≠ [])
    (hnodup : ((filesOf inp).map (fun f => f.name)).Nodup) :
    (mainRun inp).final_tracking.files.map Prod.fst =
      (toProcessOf inp).map (fun f => f.name) ++
        (changesOf inp).unchanged_files.map (fun f => f.name)
    ∧ ∀ n ∈ inp.tracking.files.map Prod.fst,
        n ∉ (filesOf inp).map (fun f => f.name) →
        lookupEntry (mainRun inp).final_tracking.files n = none :=
  mainRun_tracking_rewrite inp ha hc hproc hnodup

/-- Witness for C3: one new file `doc.md` while the store still holds
`gone.md`, whose source was archived by an earlier run: after the run
the tracking keys are exactly `[doc.md]` and `gone.md` is gone. -/
theorem c3_tracking_rewrite_witness :
    (mainRun staleTrackingInput).final_tracking.files.map Prod.fst =
      ["doc.md"]
    ∧ lookupEntry (mainRun staleTrackingInput).final_tracking.files
        "gone.md" = none := by
  have h := c3_tracking_rewrite staleTrackingInput rfl rfl (by decide)
    (by decide)
  constructor
  · rw [h.1]
    decide
  · exact h.2 "gone.md" (by decide) (by decide)

end ChunkUpload

